import Mathlib

/-!
A verification development for the goop package (goop.go): a prototype-based
dynamic object model for Go, with multiple inheritance through an ordered
prototype list and type-dependent method dispatch keyed on coarse type kinds.

The embedding is a shallow, purely functional model of goop.go:

* Go `interface{}` member values become the tagged union `Goop.Value F`.
  The type parameter `F` is the type of opaque callable implementations; a
  host-supplied application function `ap : F → List (Value F) → List (Value F)`
  models the reflection service that invokes a callable on a list of runtime
  values and returns its list of results (reflect.Value.Call).  Float payloads
  are carried opaquely (no claim depends on float arithmetic, only on the
  coarse kind of a floating-point value).
* A goop `Object` becomes `Goop.Object F`: its own symbol table (a Go map,
  modelled as an association list with unique keys) plus the ordered
  prototype list.  Mutation (Set, Unset, SetSuper) is modelled by explicit
  state passing: each operation returns the updated object.
* `ErrNotFound` becomes the `Value.vmissing` sentinel.
* reflect.Value.Call panics (calling a non-function, or calling a function
  with an incompatible argument list) are modelled as `Except.error`
  results of `Object.Call`; type compatibility is modelled at the
  granularity of reflect Kinds, the same granularity goop's own dispatch
  signatures use.
-/

namespace Goop

/-- Coarse type tags: the subset of reflect.Kind values that can describe
the member values of the model.  functionSignature and argumentSignature
in goop.go encode one byte per argument, each byte being a reflect.Kind;
signature equality is therefore kind-list equality. -/
inductive Kind : Type where
  | kBool : Kind
  | kInt : Kind
  | kFloat : Kind
  | kString : Kind
  | kSlice : Kind
  | kFunc : Kind
  | kStruct : Kind
  | kPtr : Kind
deriving DecidableEq, Repr

mutual
/-- A member value (Go `interface{}`): scalars, strings, slices, plain
functions (`vfunc` carries the declared parameter kinds and an opaque
implementation), MetaFunctions (`vmeta` carries the dispatch table built by
CombineFunctions), nested objects, and the ErrNotFound sentinel
(`vmissing`). -/
inductive Value (F : Type) : Type where
  | vbool : Bool → Value F
  | vint : Int → Value F
  | vfloat : Int → Value F
  | vstr : String → Value F
  | vslice : List (Value F) → Value F
  | vfunc : List Kind → F → Value F
  | vmeta : List (List Kind × (List Kind × F)) → Value F
  | vobj : Object F → Value F
  | vmissing : Value F

/-- The `internal` struct of goop.go: a symbol table mapping member names to
values, and the ordered prototype list. -/
inductive Object (F : Type) : Type where
  | mk : List (String × Value F) → List (Object F) → Object F
end

variable {F : Type}

/-- A callable as seen by CombineFunctions: its declared parameter kinds
(read via reflection in the source) paired with its opaque implementation. -/
abbrev Callable (F : Type) : Type := List Kind × F

/-- The dispatch table of a MetaFunction: a Go map from signature to
callable, modelled as an association list (`listAssign` below models Go map
assignment, `listLookup` models Go map lookup). -/
abbrev MetaFunction (F : Type) : Type := List (List Kind × Callable F)

/-- Go map lookup `m[k]` on an association list: first matching key. -/
def listLookup {α β : Type} [DecidableEq α] : List (α × β) → α → Option β
  | [], _ => none
  | (k, v) :: rest, q => if k = q then some v else listLookup rest q

/-- Go map assignment `m[k] = v` on an association list: replace the value
stored at an existing key, or append a new binding. -/
def listAssign {α β : Type} [DecidableEq α] : List (α × β) → α → β → List (α × β)
  | [], k, v => [(k, v)]
  | (k', v') :: rest, k, v =>
    if k' = k then (k', v) :: rest else (k', v') :: listAssign rest k v

/-- Go map deletion `delete(m, k)` on an association list. -/
def listRemove {α β : Type} [DecidableEq α] : List (α × β) → α → List (α × β)
  | [], _ => []
  | (k', v') :: rest, k => if k' = k then rest else (k', v') :: listRemove rest k

/-- The object's own member store (`internal.symbolTable`). -/
def Object.symbolTable : Object F → List (String × Value F)
  | .mk table _ => table

/-- The object's prototype list (`internal.prototypes`). -/
def Object.prototypes : Object F → List (Object F)
  | .mk _ protos => protos

/-- `New()` without a constructor: an empty symbol table and no prototypes.
(Running a constructor callable is an effectful host invocation; no claim
depends on it.) -/
def New : Object F := .mk [] []

/-- `Object.Set`: unconditional insert-or-overwrite in the object's own
symbol table.  Mutation of the shared store is modelled by returning the
updated object. -/
def Object.Set (obj : Object F) (memberName : String) (value : Value F) : Object F :=
  .mk (listAssign obj.symbolTable memberName value) obj.prototypes

/-- `Object.Unset`: remove a member from the object's own symbol table. -/
def Object.Unset (obj : Object F) (memberName : String) : Object F :=
  .mk (listRemove obj.symbolTable memberName) obj.prototypes

/-- An argument to SetSuper is either an individual object or a slice of
objects (the source type-switches on reflect Array/Slice kinds). -/
inductive SuperArg (F : Type) : Type where
  | one : Object F → SuperArg F
  | many : List (Object F) → SuperArg F

/-- The append loop of SetSuper: starting from the freshly emptied prototype
list, append each individual object or each element of each slice in turn. -/
def flattenSuper : List (SuperArg F) → List (Object F)
  | [] => []
  | .one p :: rest => p :: flattenSuper rest
  | .many ps :: rest => ps ++ flattenSuper rest

/-- `Object.SetSuper`: empty the current prototype list, then append each
given parent (or each member of each given slice) in turn.  The previous
prototype list is discarded wholesale. -/
def Object.SetSuper (obj : Object F) (parentObjs : List (SuperArg F)) : Object F :=
  .mk obj.symbolTable (flattenSuper parentObjs)

/-- `Object.Super`: the current prototype list.  The source returns a
defensive copy; a copy is equal as a list, and aliasing is invisible in the
functional model. -/
def Object.Super (obj : Object F) : List (Object F) :=
  obj.prototypes

mutual
/-- `Object.Get`: search the object's own symbol table; if the member is
absent there, try each prototype in declaration order. -/
def Object.Get (obj : Object F) (memberName : String) : Value F :=
  match obj with
  | .mk table protos =>
    match listLookup table memberName with
    | some value => value
    | none => Object.getFromParents protos memberName
termination_by sizeOf obj

/-- The parent-scan loop of Object.Get: return the first parent's resolution
that is not ErrNotFound; if every parent misses, return ErrNotFound. -/
def Object.getFromParents (protos : List (Object F)) (memberName : String) : Value F :=
  match protos with
  | [] => .vmissing
  | parent :: rest =>
    match Object.Get parent memberName with
    | .vmissing => Object.getFromParents rest memberName
    | parentValue => parentValue
termination_by sizeOf protos
end

/-- The coarse reflect.Kind of a runtime value.  `vfunc` and `vmeta` are both
Go functions (reflect.Func); objects are structs; ErrNotFound is a pointer to
an errorString. -/
def kindOf : Value F → Kind
  | .vbool _ => .kBool
  | .vint _ => .kInt
  | .vfloat _ => .kFloat
  | .vstr _ => .kString
  | .vslice _ => .kSlice
  | .vfunc _ _ => .kFunc
  | .vmeta _ => .kFunc
  | .vobj _ => .kStruct
  | .vmissing => .kPtr

/-- Whether a value's reflect Kind is Func (the filter used by Contents when
`alsoMethods` is false). -/
def isFuncKind (v : Value F) : Bool :=
  match kindOf v with
  | .kFunc => true
  | _ => false

/-- `functionSignature`: the declared parameter kinds of a callable,
enumerated via reflection in the source and carried directly by the modelled
callable. -/
def functionSignature (funcIface : Callable F) : List Kind :=
  funcIface.1

/-- `argumentSignature`: the kinds of a list of runtime argument values. -/
def argumentSignature (argList : List (Value F)) : List Kind :=
  argList.map kindOf

/-- `CombineFunctions`: build the dispatch map from signature to callable.
Two callables with the same computed signature: the later one silently
replaces the earlier (Go map assignment, last write wins). -/
def CombineFunctions (functions : List (Callable F)) : MetaFunction F :=
  functions.foldl (fun dispatchMap f => listAssign dispatchMap (functionSignature f) f) []

/-- The dispatcher closure returned by CombineFunctions: look the runtime
argument signature up in the dispatch map; on a miss return the singleton
ErrNotFound slice; on a hit invoke the matching callable (via the
host-supplied application function `ap`) and return its results. -/
def metaApply (ap : F → List (Value F) → List (Value F))
    (dispatchMap : MetaFunction F) (varArgs : List (Value F)) : List (Value F) :=
  match listLookup dispatchMap (argumentSignature varArgs) with
  | none => [.vmissing]
  | some funcIface => ap funcIface.2 varArgs

/-- The two failure modes of reflect.Value.Call inside Object.Call: invoking
a member that is not a function, and invoking a function with an
incompatible argument list.  Both are panics in Go; the model surfaces them
as Except errors. -/
inductive CallErr : Type where
  | notCallable : CallErr
  | badArgs : CallErr
deriving DecidableEq, Repr

/-- `Object.Call`: resolve the member with Get.  If that yields ErrNotFound,
return the singleton slice [ErrNotFound].  If the member is a MetaFunction,
invoke the dispatcher with the receiver prepended to the arguments and
return its result slice directly (the source unwraps the MetaFunction's
already-wrapped results instead of wrapping them a second time).  If the
member is a plain callable, reflect.Value.Call checks the argument list
against the declared parameters — modelled at kind granularity — and either
invokes it, collecting its results into a slice, or panics (`badArgs`).
Calling any other member value panics (`notCallable`). -/
def Object.Call (ap : F → List (Value F) → List (Value F))
    (obj : Object F) (methodName : String) (arguments : List (Value F)) :
    Except CallErr (List (Value F)) :=
  match obj.Get methodName with
  | .vmissing => .ok [.vmissing]
  | .vmeta dispatchMap => .ok (metaApply ap dispatchMap (.vobj obj :: arguments))
  | .vfunc params impl =>
    if argumentSignature (.vobj obj :: arguments) = params then
      .ok (ap impl (.vobj obj :: arguments))
    else
      .error .badArgs
  | _ => .error .notCallable

/-- The effective member mapping produced by Contents: a map from member
name to value, modelled as a function into Option. -/
abbrev Smap (F : Type) : Type := String → Option (Value F)

/-- Write one binding into the result map (Go `resultMap[key] = val`). -/
def sinsert (acc : Smap F) (key : String) (val : Value F) : Smap F :=
  fun q => if q = key then some val else acc q

/-- Write every binding of `top` into the result map `base` (the inner
`for key, val := range parentObj.Contents(...)` copy loop): keys present in
`top` win. -/
def soverlay (base top : Smap F) : Smap F :=
  fun q =>
    match top q with
    | some v => some v
    | none => base q

/-- The own-table copy loop of Contents: write each own member into the
result map, skipping function-kind values when `alsoMethods` is false. -/
def ownOverlay (alsoMethods : Bool) : List (String × Value F) → Smap F → Smap F
  | [], acc => acc
  | (key, val) :: rest, acc =>
    ownOverlay alsoMethods rest
      (if alsoMethods || !isFuncKind val then sinsert acc key val else acc)

mutual
/-- `Object.Contents`: copy the parents' effective contents in reverse
declaration order (so an earlier-declared parent's bindings overwrite a
later-declared parent's), then copy the object's own members last. -/
def Object.Contents (obj : Object F) (alsoMethods : Bool) : Smap F :=
  match obj with
  | .mk table protos =>
    ownOverlay alsoMethods table (Object.contentsRev protos alsoMethods)
termination_by sizeOf obj

/-- The reverse-order parent copy loop of Contents.  The source iterates the
prototype list from the last index down to index 0, each iteration
overwriting what is already in the result map; the final map therefore binds
each key to the first-declared parent that supplies it, which is what this
head-wins recursion computes. -/
def Object.contentsRev (protos : List (Object F)) (alsoMethods : Bool) : Smap F :=
  match protos with
  | [] => fun _ => none
  | parent :: rest =>
    soverlay (Object.contentsRev rest alsoMethods) (parent.Contents alsoMethods)
termination_by sizeOf protos
end

/-- Whether a value is the ErrNotFound sentinel. -/
def isMissingB : Value F → Bool
  | .vmissing => true
  | _ => false

/-- Whether a symbol table binds a value that is the ErrNotFound sentinel.
A Go program can store ErrNotFound as a member value; this predicate marks
the tables that do not. -/
def tableNoMissing : List (String × Value F) → Bool
  | [] => true
  | (_, v) :: rest => !isMissingB v && tableNoMissing rest

/-- Whether a symbol table's keys are pairwise distinct.  Go maps guarantee
this; the association-list model states it explicitly. -/
def keysUnique : List (String × Value F) → Bool
  | [] => true
  | (k, _) :: rest => !(listLookup rest k).isSome && keysUnique rest

mutual
/-- Structural well-formedness of the association-list model: every symbol
table reachable through the prototype lists has pairwise distinct keys, as
every Go map does by construction. -/
def objWF : Object F → Bool
  | .mk table protos => keysUnique table && objListWF protos
termination_by o => sizeOf o

def objListWF : List (Object F) → Bool
  | [] => true
  | p :: rest => objWF p && objListWF rest
termination_by ps => sizeOf ps
end

mutual
/-- Whether no symbol table reachable through the prototype lists stores the
ErrNotFound sentinel as a member value. -/
def noMissingStored : Object F → Bool
  | .mk table protos => tableNoMissing table && noMissingList protos
termination_by o => sizeOf o

def noMissingList : List (Object F) → Bool
  | [] => true
  | p :: rest => noMissingStored p && noMissingList rest
termination_by ps => sizeOf ps
end

/-- Whether a resolved member value is a data value that reflect.Value.Call
cannot invoke: neither a plain function, nor a MetaFunction, nor the
ErrNotFound sentinel (whose resolution short-circuits Call before any
invocation is attempted). -/
def notCallableVal : Value F → Bool
  | .vfunc _ _ => false
  | .vmeta _ => false
  | .vmissing => false
  | _ => true

/-- View a Get result as an optional map entry: ErrNotFound means the name
is absent, any other value means it is present with that value. -/
def toOpt : Value F → Option (Value F)
  | .vmissing => none
  | v => some v

/-- Spec-side description of steps 2 and 3 of the Get resolution algorithm:
scan a list of recursively resolved parent results in declaration order and
return the first one that is not Missing; if all are Missing, return
Missing. -/
def firstNonMissing : List (Value F) → Value F
  | [] => .vmissing
  | v :: rest =>
    match v with
    | .vmissing => firstNonMissing rest
    | _ => v

/-- The parent scan of Get equals the spec's description: the first
non-Missing element of the parents' recursive resolutions, in declaration
order. -/
theorem getFromParents_eq_firstNonMissing (protos : List (Object F)) (n : String) :
    Object.getFromParents protos n =
      firstNonMissing (protos.map (fun p => p.Get n)) := by
  induction protos with
  | nil => simp [Object.getFromParents, firstNonMissing]
  | cons parent rest ih =>
    rw [Object.getFromParents]
    cases hG : parent.Get n <;>
      simp [firstNonMissing, hG, ih]

/-- C1: Get(handle, name) resolves by depth-first, first-match search: a name
present in the handle's own store is returned unconditionally; otherwise the
prototype list is scanned in declaration order (index 0 first), each parent
resolved recursively by the same algorithm, and the first non-Missing result
is returned; if no parent resolves the name, Missing is returned.  On
collisions the first-declared parent is therefore the highest-priority
ancestor (pre-order, left-to-right depth-first search of the prototype
graph). -/
theorem Get_resolution (o : Object F) (n : String) :
    o.Get n =
      match listLookup o.symbolTable n with
      | some v => v
      | none => firstNonMissing (o.prototypes.map (fun p => p.Get n)) := by
  cases o with
  | mk table protos =>
    rw [Object.Get]
    simp only [Object.symbolTable, Object.prototypes]
    cases h : listLookup table n with
    | some v => simp [h]
    | none => simp [h, getFromParents_eq_firstNonMissing]

theorem listLookup_assign_self {α β : Type} [DecidableEq α]
    (m : List (α × β)) (k : α) (v : β) :
    listLookup (listAssign m k v) k = some v := by
  induction m with
  | nil => simp [listAssign, listLookup]
  | cons kv rest ih =>
    obtain ⟨k', v'⟩ := kv
    by_cases h : k' = k <;> simp [listAssign, listLookup, h, ih]

theorem listLookup_assign_ne {α β : Type} [DecidableEq α]
    (m : List (α × β)) (k q : α) (v : β) (h : k ≠ q) :
    listLookup (listAssign m k v) q = listLookup m q := by
  induction m with
  | nil => simp [listAssign, listLookup, h]
  | cons kv rest ih =>
    obtain ⟨k', v'⟩ := kv
    by_cases h1 : k' = k
    · subst h1
      simp [listAssign, listLookup, h]
    · by_cases h2 : k' = q <;> simp [listAssign, listLookup, h1, h2, ih, Ne.symm h]

theorem listLookup_combine_ne (fs : List (Callable F)) (s : List Kind)
    (h : ∀ f ∈ fs, functionSignature f ≠ s) :
    ∀ m : MetaFunction F,
      listLookup (fs.foldl (fun acc f => listAssign acc (functionSignature f) f) m) s
        = listLookup m s := by
  induction fs with
  | nil => intro m; rfl
  | cons g rest ih =>
    intro m
    simp only [List.foldl_cons]
    rw [ih (fun f hf => h f (List.mem_cons_of_mem _ hf)),
      listLookup_assign_ne _ _ _ _ (h g (List.mem_cons_self _ _))]

theorem listLookup_combine_mem (fs : List (Callable F)) (f : Callable F)
    (hnd : (fs.map functionSignature).Nodup) (hf : f ∈ fs) :
    ∀ m : MetaFunction F,
      listLookup (fs.foldl (fun acc g => listAssign acc (functionSignature g) g) m)
        (functionSignature f) = some f := by
  induction fs with
  | nil => cases hf
  | cons g rest ih =>
    have hnd2 : functionSignature g ∉ rest.map functionSignature ∧
        (rest.map functionSignature).Nodup := by
      simpa [List.nodup_cons] using hnd
    intro m
    simp only [List.foldl_cons]
    rcases List.mem_cons.mp hf with rfl | hmem
    · have hnot : ∀ f' ∈ rest, functionSignature f' ≠ functionSignature f := by
        intro f' hf' heq
        exact hnd2.1 (heq ▸ List.mem_map_of_mem functionSignature hf')
      rw [listLookup_combine_ne rest _ hnot _, listLookup_assign_self]
    · exact ih hnd2.2 hmem _

/-- C3: dispatch by exact coarse-kind signature: given callables with
pairwise distinct declared signatures combined by CombineFunctions and
stored as a method, a Call whose actual argument list (receiver prepended)
has a runtime signature exactly equal to one callable's declared signature
invokes exactly that callable and returns its result sequence; when no
declared signature equals the actual signature, the result is the
one-element sequence [Missing].  Matching is exact signature equality: no
coercion, no arity flexibility. -/
theorem dispatch_exact (ap : F → List (Value F) → List (Value F))
    (fs : List (Callable F)) (o : Object F) (name : String) (args : List (Value F))
    (hnd : (fs.map functionSignature).Nodup)
    (hres : o.Get name = .vmeta (CombineFunctions fs)) :
    (∀ f ∈ fs, functionSignature f = argumentSignature (.vobj o :: args) →
        Object.Call ap o name args = .ok (ap f.2 (.vobj o :: args)))
    ∧ ((∀ f ∈ fs, functionSignature f ≠ argumentSignature (.vobj o :: args)) →
        Object.Call ap o name args = .ok [.vmissing]) := by
  constructor
  · intro f hf hsig
    have hl : listLookup (CombineFunctions fs)
        (argumentSignature (Value.vobj o :: args)) = some f := by
      rw [← hsig, CombineFunctions]
      exact listLookup_combine_mem fs f hnd hf []
    simp [Object.Call, hres, metaApply, hl]
  · intro hnone
    have hl : listLookup (CombineFunctions fs)
        (argumentSignature (Value.vobj o :: args)) = none := by
      rw [CombineFunctions, listLookup_combine_ne fs _ hnone []]
      rfl
    simp [Object.Call, hres, metaApply, hl]

/-- C4: when Call resolves the name to a Dispatcher (MetaFunction), the
dispatcher's result sequence is returned directly, with no extra level of
sequence wrapping; in particular, when the dispatch table has no entry for
the actual argument signature, Call returns exactly the one-element sequence
[Missing]. -/
theorem Call_dispatcher_direct (ap : F → List (Value F) → List (Value F))
    (o : Object F) (name : String) (args : List (Value F))
    (m : MetaFunction F) (hres : o.Get name = .vmeta m) :
    Object.Call ap o name args = .ok (metaApply ap m (.vobj o :: args))
    ∧ (listLookup m (argumentSignature (.vobj o :: args)) = none →
        Object.Call ap o name args = .ok [.vmissing]) := by
  constructor
  · simp [Object.Call, hres]
  · intro hmiss
    simp [Object.Call, hres, metaApply, hmiss]

/-- C6: when Get resolves the method name to Missing, Call returns exactly
the one-element sequence [Missing]: method-not-found is signalled as data,
not as a raised error. -/
theorem Call_method_not_found (ap : F → List (Value F) → List (Value F))
    (o : Object F) (name : String) (args : List (Value F))
    (hres : o.Get name = .vmissing) :
    Object.Call ap o name args = .ok [.vmissing] := by
  simp [Object.Call, hres]

/-- C7: resolving the name to a non-callable member, or to a plain callable
whose declared parameter signature does not match the actual argument list
(receiver prepended), is a surfaced invocation error — an Except.error
value, which is distinct from every ok result and in particular from the
[Missing] method-not-found result, never silently swallowed into Missing. -/
theorem Call_invocation_error (ap : F → List (Value F) → List (Value F))
    (o : Object F) (name : String) (args : List (Value F)) :
    (notCallableVal (o.Get name) = true →
        Object.Call ap o name args = .error .notCallable)
    ∧ (∀ params impl, o.Get name = .vfunc params impl →
        argumentSignature (.vobj o :: args) ≠ params →
        Object.Call ap o name args = .error .badArgs)
    ∧ (∀ (e : CallErr) (res : List (Value F)),
        (Except.error e : Except CallErr (List (Value F))) ≠ Except.ok res) := by
  refine ⟨?_, ?_, ?_⟩
  · intro h
    cases hG : o.Get name
    case vfunc params impl => rw [hG] at h; simp [notCallableVal] at h
    case vmeta m => rw [hG] at h; simp [notCallableVal] at h
    case vmissing => rw [hG] at h; simp [notCallableVal] at h
    all_goals simp [Object.Call, hG]
  · intro params impl hG hne
    simp [Object.Call, hG, hne]
  · intro e res h
    exact Except.noConfusion h

/-- C5 (amended): after Set(h, n, Missing), a Get of n on h itself returns
the stored Missing (the own-store branch returns any stored value
unconditionally), but — unlike any other stored value — a Missing stored in
a prototype is treated as absence during a child's lookup: the parent scan
skips that prototype and falls through to the later-declared parents. -/
theorem set_missing_absent_through_children (h : Object F) (n : String)
    (ps1 ps2 : List (Object F)) :
    (h.Set n .vmissing).Get n = .vmissing
    ∧ Object.getFromParents (ps1 ++ (h.Set n .vmissing) :: ps2) n
        = Object.getFromParents (ps1 ++ ps2) n := by
  have h1 : (h.Set n Value.vmissing).Get n = Value.vmissing := by
    cases h with
    | mk t ps =>
      simp only [Object.Set, Object.symbolTable, Object.prototypes]
      rw [Object.Get]
      simp [listLookup_assign_self]
  refine ⟨h1, ?_⟩
  induction ps1 with
  | nil =>
    simp only [List.nil_append]
    rw [Object.getFromParents, h1]
  | cons q rest ih =>
    simp only [List.cons_append]
    rw [Object.getFromParents, Object.getFromParents]
    cases hq : q.Get n <;> simp [ih]

/-- C5 (counterexample to the claim as stated): storing Missing does not
behave like storing an opaque marker value.  A child with two prototypes,
the first of which has had Missing stored under "n" and the second of which
binds "n" to 5: Get on the child skips the stored Missing and returns 5,
whereas with any other stored value (an opaque string marker) in the same
position Get returns that stored value. -/
theorem set_missing_counterexample :
    (Object.mk [] [(Object.mk [("n", Value.vint 1)] []).Set "n" Value.vmissing,
        Object.mk [("n", Value.vint 5)] []] : Object Unit).Get "n" = Value.vint 5
    ∧ (Object.mk [] [(Object.mk [("n", Value.vint 1)] []).Set "n" (Value.vstr "marker"),
        Object.mk [("n", Value.vint 5)] []] : Object Unit).Get "n" = Value.vstr "marker"
    ∧ Value.vint 5 ≠ (Value.vmissing : Value Unit) := by
  refine ⟨?_, ?_, ?_⟩
  · simp [Object.Set, Object.symbolTable, Object.prototypes, listAssign,
      Object.Get, Object.getFromParents, listLookup]
  · simp [Object.Set, Object.symbolTable, Object.prototypes, listAssign,
      Object.Get, Object.getFromParents, listLookup]
  · simp

/-- C8: SetSuper replaces the entire prototype list: whatever the previous
prototype list was, after SetSuper(child, p3) a name absent from the child's
own store and unresolvable through p3 yields Missing — members visible only
through the prior parents are unreachable. -/
theorem SetSuper_replaces (t : List (String × Value F)) (oldProtos : List (Object F))
    (p3 : Object F) (n : String)
    (hown : listLookup t n = none) (hp3 : p3.Get n = .vmissing) :
    ((Object.mk t oldProtos).SetSuper [.one p3]).Get n = .vmissing := by
  simp only [Object.SetSuper, Object.symbolTable, Object.prototypes, flattenSuper]
  rw [Object.Get]
  simp only [hown]
  rw [Object.getFromParents, hp3]
  rw [Object.getFromParents]

/-- C10: SetSuper with zero arguments replaces the prototype list with the
empty list: afterwards Super returns an empty sequence, and Get returns
Missing for every name absent from the object's own store — all inheritance
is severed. -/
theorem SetSuper_empty_severs (t : List (String × Value F))
    (oldProtos : List (Object F)) (n : String) :
    ((Object.mk t oldProtos).SetSuper []).Super = ([] : List (Object F))
    ∧ (listLookup t n = none → ((Object.mk t oldProtos).SetSuper []).Get n = .vmissing) := by
  constructor
  · simp [Object.SetSuper, Object.Super, Object.symbolTable, Object.prototypes, flattenSuper]
  · intro hmiss
    simp only [Object.SetSuper, Object.symbolTable, Object.prototypes, flattenSuper]
    rw [Object.Get]
    simp only [hmiss]
    rw [Object.getFromParents]

theorem objListWF_mem {ps : List (Object F)} (h : objListWF ps = true)
    {p : Object F} (hp : p ∈ ps) : objWF p = true := by
  induction ps with
  | nil => cases hp
  | cons q rest ih =>
    rw [objListWF, Bool.and_eq_true] at h
    rcases List.mem_cons.mp hp with rfl | hmem
    · exact h.1
    · exact ih h.2 hmem

theorem noMissingList_mem {ps : List (Object F)} (h : noMissingList ps = true)
    {p : Object F} (hp : p ∈ ps) : noMissingStored p = true := by
  induction ps with
  | nil => cases hp
  | cons q rest ih =>
    rw [noMissingList, Bool.and_eq_true] at h
    rcases List.mem_cons.mp hp with rfl | hmem
    · exact h.1
    · exact ih h.2 hmem

theorem tableNoMissing_lookup {t : List (String × Value F)}
    (h : tableNoMissing t = true) {n : String} {v : Value F}
    (hl : listLookup t n = some v) : v ≠ .vmissing := by
  induction t with
  | nil => cases hl
  | cons kv rest ih =>
    obtain ⟨k, w⟩ := kv
    rw [tableNoMissing, Bool.and_eq_true] at h
    rw [listLookup] at hl
    by_cases hk : k = n
    · rw [if_pos hk] at hl
      injection hl with hl
      subst hl
      intro hvm
      rw [hvm] at h
      simp [isMissingB] at h
    · rw [if_neg hk] at hl
      exact ih h.2 hl

theorem ownOverlay_no_key (b : Bool) (t : List (String × Value F)) (n : String)
    (h : listLookup t n = none) :
    ∀ acc : Smap F, ownOverlay b t acc n = acc n := by
  induction t with
  | nil => intro acc; rfl
  | cons kv rest ih =>
    obtain ⟨k, v⟩ := kv
    intro acc
    rw [listLookup] at h
    by_cases hk : k = n
    · rw [if_pos hk] at h; cases h
    · rw [if_neg hk] at h
      rw [ownOverlay, ih h]
      simp [sinsert, ite_apply, Ne.symm hk]

theorem ownOverlay_lookup (b : Bool) (t : List (String × Value F)) (n : String)
    (hku : keysUnique t = true) :
    ∀ acc : Smap F,
      ownOverlay b t acc n =
        match listLookup t n with
        | some v => if b || !isFuncKind v then some v else acc n
        | none => acc n := by
  induction t with
  | nil => intro acc; rfl
  | cons kv rest ih =>
    obtain ⟨k, v⟩ := kv
    rw [keysUnique, Bool.and_eq_true] at hku
    intro acc
    rw [ownOverlay]
    by_cases hkn : k = n
    · subst hkn
      have hrest : listLookup rest k = none := by
        cases hl : listLookup rest k with
        | none => rfl
        | some w => rw [hl] at hku; simp at hku
      rw [ownOverlay_no_key b rest k hrest]
      simp [listLookup, sinsert, ite_apply]
    · rw [ih hku.2]
      cases hl : listLookup rest n <;>
        simp [listLookup, hkn, hl, sinsert, ite_apply, Ne.symm hkn]

theorem contentsRev_agree (protos : List (Object F)) (n : String)
    (H : ∀ p ∈ protos, p.Contents true n = toOpt (p.Get n)) :
    Object.contentsRev protos true n = toOpt (Object.getFromParents protos n) := by
  induction protos with
  | nil =>
    rw [Object.contentsRev, Object.getFromParents]
    rfl
  | cons parent rest ih =>
    have hp := H parent (List.mem_cons_self _ _)
    have hrest := ih (fun q hq => H q (List.mem_cons_of_mem _ hq))
    rw [Object.contentsRev, Object.getFromParents]
    simp only [soverlay, hp]
    cases hG : parent.Get n <;> simp [toOpt, hrest]

theorem contents_get_aux : ∀ (N : Nat) (o : Object F), sizeOf o ≤ N →
    objWF o = true → noMissingStored o = true →
    ∀ n, o.Contents true n = toOpt (o.Get n) := by
  intro N
  induction N with
  | zero =>
    intro o h
    exfalso
    cases o with
    | mk t ps => simp at h
  | succ N ih =>
    intro o hsz hwf hnm n
    cases o with
    | mk t ps =>
      rw [objWF, Bool.and_eq_true] at hwf
      rw [noMissingStored, Bool.and_eq_true] at hnm
      have hpar : ∀ p ∈ ps, p.Contents true n = toOpt (p.Get n) := by
        intro p hp
        have h1 : sizeOf p < sizeOf ps := List.sizeOf_lt_of_mem hp
        have h2 : sizeOf (Object.mk t ps) = 1 + sizeOf t + sizeOf ps := by simp
        exact ih p (by omega) (objListWF_mem hwf.2 hp) (noMissingList_mem hnm.2 hp) n
      rw [Object.Contents]
      rw [ownOverlay_lookup true t n hwf.1]
      rw [contentsRev_agree ps n hpar]
      rw [Object.Get]
      cases hl : listLookup t n with
      | none => rfl
      | some v =>
        have hv : v ≠ Value.vmissing := tableNoMissing_lookup hnm.1 hl
        cases v <;> first | exact absurd rfl hv | simp [toOpt]

/-- C2 (amended): provided no object reachable through the handle's
prototype lists (the handle included) stores Missing as a member value —
and with the Go-map invariant that symbol-table keys are unique — the
Contents merge agrees with Get at every name: Contents(h, true) n = some v
exactly when Get(h, n) = v with v not Missing, and n is absent from
Contents(h, true) exactly when Get(h, n) is Missing, even though the two
algorithms traverse the prototype list in opposite orders. -/
theorem Contents_agrees_Get (o : Object F) (hwf : objWF o = true)
    (hnm : noMissingStored o = true) (n : String) :
    o.Contents true n = toOpt (o.Get n) :=
  contents_get_aux (sizeOf o) o (Nat.le_refl _) hwf hnm n

/-- C2 (counterexample to the claim as stated): the equivalence is not
unconditional.  With Missing stored under "n" in the first prototype and 5
under "n" in the second, Contents(child, true) binds "n" to Missing (the
merge copies stored values blindly, first-declared parent winning), while
Get(child, "n") skips the stored Missing and returns 5: the name is present
in Contents(child, true) with a value different from Get(child, "n"). -/
theorem Contents_Get_counterexample :
    (Object.mk [] [Object.mk [("n", Value.vmissing)] [],
        Object.mk [("n", Value.vint 5)] []] : Object Unit).Contents true "n"
      = some Value.vmissing
    ∧ (Object.mk [] [Object.mk [("n", Value.vmissing)] [],
        Object.mk [("n", Value.vint 5)] []] : Object Unit).Get "n" = Value.vint 5
    ∧ some (Value.vmissing : Value Unit) ≠ some (Value.vint 5 : Value Unit) := by
  refine ⟨?_, ?_, ?_⟩
  · simp [Object.Contents, Object.contentsRev, ownOverlay, soverlay, sinsert,
      listLookup]
  · simp [Object.Get, Object.getFromParents, listLookup]
  · simp

theorem ownOverlay_false_preserves (t : List (String × Value F)) (n : String) :
    ∀ acc : Smap F, (∀ w, acc n = some w → isFuncKind w = false) →
      ∀ w, ownOverlay false t acc n = some w → isFuncKind w = false := by
  induction t with
  | nil => intro acc hacc w h; exact hacc w h
  | cons kv rest ih =>
    obtain ⟨k, v⟩ := kv
    intro acc hacc w h
    rw [ownOverlay] at h
    refine ih _ ?_ w h
    intro w' hw'
    cases hf : isFuncKind v with
    | true =>
      rw [hf] at hw'
      simp only [Bool.false_or, Bool.not_true, if_neg] at hw'
      exact hacc w' (by simpa using hw')
    | false =>
      rw [hf] at hw'
      simp only [Bool.false_or, Bool.not_false, if_pos, sinsert] at hw'
      by_cases hnk : n = k
      · rw [if_pos hnk] at hw'
        injection hw' with hw'
        rw [← hw']
        exact hf
      · rw [if_neg hnk] at hw'
        exact hacc w' hw'

theorem contentsRev_false_preserves (protos : List (Object F)) (n : String)
    (H : ∀ p ∈ protos, ∀ w, p.Contents false n = some w → isFuncKind w = false) :
    ∀ w, Object.contentsRev protos false n = some w → isFuncKind w = false := by
  induction protos with
  | nil =>
    intro w h
    rw [Object.contentsRev] at h
    cases h
  | cons parent rest ih =>
    intro w h
    rw [Object.contentsRev] at h
    simp only [soverlay] at h
    cases hc : parent.Contents false n with
    | some u =>
      rw [hc] at h
      injection h with h
      rw [← h]
      exact H parent (List.mem_cons_self _ _) u hc
    | none =>
      rw [hc] at h
      exact ih (fun q hq => H q (List.mem_cons_of_mem _ hq)) w h

theorem contents_false_no_func : ∀ (N : Nat) (o : Object F), sizeOf o ≤ N →
    ∀ (n : String) (w : Value F), o.Contents false n = some w → isFuncKind w = false := by
  intro N
  induction N with
  | zero =>
    intro o h
    exfalso
    cases o with
    | mk t ps => simp at h
  | succ N ih =>
    intro o hsz n w hw
    cases o with
    | mk t ps =>
      rw [Object.Contents] at hw
      refine ownOverlay_false_preserves t n _ ?_ w hw
      intro w' hw'
      refine contentsRev_false_preserves ps n ?_ w' hw'
      intro p hp w'' hw''
      have h1 : sizeOf p < sizeOf ps := List.sizeOf_lt_of_mem hp
      have h2 : sizeOf (Object.mk t ps) = 1 + sizeOf t + sizeOf ps := by simp
      exact ih p (by omega) n w'' hw''

/-- C9: in the data-only view, an own callable member does not mask an
inherited data member of the same name: when the object's own store binds n
to a function-kind value while the prototype overlay (first-declared parent
winning) binds n to w, Contents(handle, false) binds n to w — the own
callable is filtered out after the overlay — and w is itself non-callable,
even though Get(handle, n) returns the own callable. -/
theorem own_callable_does_not_mask_data (t : List (String × Value F))
    (ps : List (Object F)) (n : String) (v w : Value F)
    (hku : keysUnique t = true)
    (hv : listLookup t n = some v)
    (hfn : isFuncKind v = true)
    (hanc : Object.contentsRev ps false n = some w) :
    (Object.mk t ps).Contents false n = some w
    ∧ (Object.mk t ps).Get n = v
    ∧ isFuncKind w = false := by
  refine ⟨?_, ?_, ?_⟩
  · rw [Object.Contents, ownOverlay_lookup false t n hku, hv]
    simp only [hfn, Bool.false_or, Bool.not_true, if_neg]
    simpa using hanc
  · rw [Object.Get, hv]
  · exact contentsRev_false_preserves ps n
      (fun p hp w' hw' => contents_false_no_func (sizeOf p) p (Nat.le_refl _) n w' hw')
      w hanc

/-- Witness for C2: a concrete two-parent object on which the amended
equivalence is applied with its hypotheses discharged by evaluation. -/
theorem Contents_agrees_Get_witness :
    (Object.mk [("own", Value.vint 1)] [Object.mk [("a", Value.vint 2)] [],
      Object.mk [("a", Value.vint 3), ("b", Value.vint 4)] []] : Object Unit).Contents true "a"
      = toOpt ((Object.mk [("own", Value.vint 1)] [Object.mk [("a", Value.vint 2)] [],
      Object.mk [("a", Value.vint 3), ("b", Value.vint 4)] []] : Object Unit).Get "a") :=
  Contents_agrees_Get _
    (by simp [objWF, objListWF, keysUnique, listLookup])
    (by simp [noMissingStored, noMissingList, tableNoMissing, isMissingB]) "a"

/-- Witness for C3: the spec's example dispatch set — signatures
(receiver, int, int), (receiver, float, float), (receiver, int) — called
with (2, 3) invokes the first callable, and called with a single float
returns [Missing]. -/
theorem dispatch_exact_witness :
    Object.Call (fun n _ => [Value.vint (Int.ofNat n)])
      (Object.mk [("add", Value.vmeta (CombineFunctions
        [([Kind.kStruct, Kind.kInt, Kind.kInt], 0),
         ([Kind.kStruct, Kind.kFloat, Kind.kFloat], 1),
         ([Kind.kStruct, Kind.kInt], 2)]))] [])
      "add" [Value.vint 2, Value.vint 3] = .ok [Value.vint 0]
    ∧ Object.Call (fun n _ => [Value.vint (Int.ofNat n)])
      (Object.mk [("add", Value.vmeta (CombineFunctions
        [([Kind.kStruct, Kind.kInt, Kind.kInt], 0),
         ([Kind.kStruct, Kind.kFloat, Kind.kFloat], 1),
         ([Kind.kStruct, Kind.kInt], 2)]))] [])
      "add" [Value.vfloat 54] = .ok [Value.vmissing] := by
  constructor
  · exact (dispatch_exact (fun n _ => [Value.vint (Int.ofNat n)])
      [([Kind.kStruct, Kind.kInt, Kind.kInt], 0),
       ([Kind.kStruct, Kind.kFloat, Kind.kFloat], 1),
       ([Kind.kStruct, Kind.kInt], 2)]
      _ "add" [Value.vint 2, Value.vint 3]
      (by decide)
      (by simp [Object.Get, listLookup])).1
      ([Kind.kStruct, Kind.kInt, Kind.kInt], 0) (by decide) (by decide)
  · exact (dispatch_exact (fun n _ => [Value.vint (Int.ofNat n)])
      [([Kind.kStruct, Kind.kInt, Kind.kInt], 0),
       ([Kind.kStruct, Kind.kFloat, Kind.kFloat], 1),
       ([Kind.kStruct, Kind.kInt], 2)]
      _ "add" [Value.vfloat 54]
      (by decide)
      (by simp [Object.Get, listLookup])).2
      (by decide)

/-- Witness for C4: a dispatcher whose single entry expects (receiver, int),
invoked with no arguments: no table entry matches the actual signature
(receiver only), and Call returns exactly [Missing]. -/
theorem Call_dispatcher_direct_witness :
    Object.Call (fun _ _ => ([] : List (Value Unit)))
      (Object.mk [("d", Value.vmeta
        [([Kind.kStruct, Kind.kInt], ([Kind.kStruct, Kind.kInt], ()))])] [])
      "d" [] = .ok [Value.vmissing] :=
  (Call_dispatcher_direct (fun _ _ => ([] : List (Value Unit)))
    (Object.mk [("d", Value.vmeta
      [([Kind.kStruct, Kind.kInt], ([Kind.kStruct, Kind.kInt], ()))])] [])
    "d" []
    [([Kind.kStruct, Kind.kInt], ([Kind.kStruct, Kind.kInt], ()))]
    (by simp [Object.Get, listLookup])).2 (by decide)

/-- Witness for C6: Call on an empty object returns exactly [Missing]. -/
theorem Call_method_not_found_witness :
    Object.Call (fun _ _ => ([] : List (Value Unit)))
      (Object.mk [] []) "foo" [] = .ok [Value.vmissing] :=
  Call_method_not_found (fun _ _ => ([] : List (Value Unit)))
    (Object.mk [] []) "foo" []
    (by simp [Object.Get, Object.getFromParents, listLookup])

/-- Witness for C7: calling an int-valued member surfaces the not-callable
error, and calling a plain callable declared for (receiver, int) with no
arguments surfaces the bad-arguments error. -/
theorem Call_invocation_error_witness :
    Object.Call (fun _ _ => ([] : List (Value Unit)))
      (Object.mk [("x", Value.vint 1),
        ("f", Value.vfunc [Kind.kStruct, Kind.kInt] ())] [])
      "x" [] = .error .notCallable
    ∧ Object.Call (fun _ _ => ([] : List (Value Unit)))
      (Object.mk [("x", Value.vint 1),
        ("f", Value.vfunc [Kind.kStruct, Kind.kInt] ())] [])
      "f" [] = .error .badArgs := by
  constructor
  · exact (Call_invocation_error (fun _ _ => ([] : List (Value Unit)))
      (Object.mk [("x", Value.vint 1),
        ("f", Value.vfunc [Kind.kStruct, Kind.kInt] ())] []) "x" []).1
      (by simp [Object.Get, listLookup, notCallableVal])
  · exact (Call_invocation_error (fun _ _ => ([] : List (Value Unit)))
      (Object.mk [("x", Value.vint 1),
        ("f", Value.vfunc [Kind.kStruct, Kind.kInt] ())] []) "f" []).2.1
      [Kind.kStruct, Kind.kInt] ()
      (by simp [Object.Get, listLookup])
      (by decide)

/-- Witness for C8: a child owning "x" with two prior parents supplying "a"
and "b"; after SetSuper(child, p3) with p3 supplying only "c", the name "a"
(previously inherited from the first parent) resolves to Missing. -/
theorem SetSuper_replaces_witness :
    ((Object.mk [("x", Value.vint 9)]
        [Object.mk [("a", Value.vint 1)] [], Object.mk [("b", Value.vint 2)] []]
        : Object Unit).SetSuper
      [.one (Object.mk [("c", Value.vint 3)] [])]).Get "a" = Value.vmissing :=
  SetSuper_replaces [("x", Value.vint 9)]
    [Object.mk [("a", Value.vint 1)] [], Object.mk [("b", Value.vint 2)] []]
    (Object.mk [("c", Value.vint 3)] []) "a"
    (by simp [listLookup])
    (by simp [Object.Get, Object.getFromParents, listLookup])

/-- Witness for C9: an object whose own "m" is a callable while its single
prototype binds "m" to the data value 7: the data-only Contents binds "m"
to 7 even though Get returns the own callable. -/
theorem own_callable_does_not_mask_data_witness :
    (Object.mk [("m", Value.vfunc [Kind.kStruct] ())]
        [Object.mk [("m", Value.vint 7)] []] : Object Unit).Contents false "m"
      = some (Value.vint 7)
    ∧ (Object.mk [("m", Value.vfunc [Kind.kStruct] ())]
        [Object.mk [("m", Value.vint 7)] []] : Object Unit).Get "m"
      = Value.vfunc [Kind.kStruct] ()
    ∧ isFuncKind (Value.vint 7 : Value Unit) = false := by
  have h := own_callable_does_not_mask_data
    [("m", Value.vfunc [Kind.kStruct] ())]
    [Object.mk [("m", Value.vint 7)] []] "m"
    (Value.vfunc [Kind.kStruct] ()) (Value.vint 7)
    (by simp [keysUnique, listLookup])
    (by simp [listLookup])
    (by simp [isFuncKind, kindOf])
    (by simp [Object.contentsRev, Object.Contents, ownOverlay, soverlay, sinsert,
      isFuncKind, kindOf, listLookup])
  exact h

/-- Witness for C10: severing all inheritance on a child with one prior
parent supplying "y": afterwards Super is empty and "y" resolves to
Missing. -/
theorem SetSuper_empty_severs_witness :
    ((Object.mk [("x", Value.vint 1)] [Object.mk [("y", Value.vint 2)] []]
        : Object Unit).SetSuper []).Super = ([] : List (Object Unit))
    ∧ ((Object.mk [("x", Value.vint 1)] [Object.mk [("y", Value.vint 2)] []]
        : Object Unit).SetSuper []).Get "y" = Value.vmissing := by
  have h := SetSuper_empty_severs ([("x", Value.vint 1)] : List (String × Value Unit))
    [Object.mk [("y", Value.vint 2)] []] "y"
  exact ⟨h.1, h.2 (by simp [listLookup])⟩

end Goop
